import Mathlib

/-!
Verification of the hybrid retrieval fusion and reranking pipeline of the
Vietnam Traffic Law RAG system.

The definitions below are a shallow embedding of the Python sources:
* `src/app/core/retrieval.py` (`reciprocal_rank_fusion`, `hybrid_search`),
* `src/app/core/rerank.py` (`rerank_documents`),
* `src/app/main.py` (`query_endpoint`),
* `src/services/retrieval.py` (`RetrievalService.retrieve`,
  `RetrievalService.retrieve_with_scores`).

Python documents are loosely-typed dictionaries.  We model a document as a
record with the fields the pipeline actually inspects (`content`, `source`,
both optional since a dict key may be absent) plus an opaque `payload`
standing for all remaining dictionary entries.  Scores are modelled as
rationals (`ℚ`); the I/O results of the external search backends and of the
reranker HTTP call are passed in as explicit arguments (`Except` for calls
that may raise).
-/

namespace RagPipeline

/-- A backend document dictionary: `content` / `source` keys may be absent
(`none`), `payload` stands for the remaining dictionary fields. -/
structure Doc where
  content : Option String
  source : Option String
  payload : ℕ
deriving DecidableEq, Repr

/-- `doc.get("content", "")` — the deduplication key used by
`reciprocal_rank_fusion`. -/
def key (d : Doc) : String := d.content.getD ""

/-- A fused document: the first-encountered dictionary for a content key
(`doc`, from `doc_metadata`) together with its accumulated RRF score
(`rrf_score`, from `fused_scores`); corresponds to the dict copy with
`doc["rrf_score"] = score` in the Python source. -/
structure FusedDoc where
  doc : Doc
  rrf_score : ℚ
deriving DecidableEq, Repr

/-- Content key of a fused entry. -/
def fkey (f : FusedDoc) : String := key f.doc

/-- Add `q` to the score of every entry whose key is `c` (at most one such
entry exists in a well-formed accumulator, mirroring a dict update). -/
def bump (c : String) (q : ℚ) (f : FusedDoc) : FusedDoc :=
  if fkey f = c then ⟨f.doc, f.rrf_score + q⟩ else f

/-- One loop iteration of `reciprocal_rank_fusion`: if the key of `d` is
already present add the contribution to its score (keeping the stored
metadata), otherwise insert a fresh entry (score initialised to `0` and then
immediately incremented, hence `contrib`).  The accumulator `m` is the pair
of insertion-ordered dicts `fused_scores` / `doc_metadata`, fused into one
association list since they always share exactly the same keys in the same
insertion order. -/
def addDoc (m : List FusedDoc) (d : Doc) (contrib : ℚ) : List FusedDoc :=
  if m.any (fun f => fkey f = key d) then
    m.map (bump (key d) contrib)
  else
    m ++ [⟨d, contrib⟩]

/-- The inner `for rank, doc in enumerate(docs)` loop: `rank` starts at `0`
and the contribution of a document at 0-based rank `r` is `1 / (k + r + 1)`
(so 1-based rank `r+1` contributes `1 / (k + (r+1))`). -/
def processDocs (k : ℕ) : ℕ → List FusedDoc → List Doc → List FusedDoc
  | _, m, [] => m
  | rank, m, d :: ds =>
      processDocs k (rank + 1) (addDoc m d ((1 : ℚ) / (k + rank + 1))) ds

/-- The outer `for source, docs in results_dict.items()` loop; Python dicts
iterate in insertion order, so `results_dict` is an ordered association
list. -/
def buildFused (results_dict : List (String × List Doc)) (k : ℕ) : List FusedDoc :=
  results_dict.foldl (fun m p => processDocs k 0 m p.2) []

/-- The order used by `sorted(..., key=lambda x: x[1], reverse=True)`:
descending by score. -/
def scoreDesc (a b : FusedDoc) : Prop := b.rrf_score ≤ a.rrf_score

instance : DecidableRel scoreDesc := fun a b =>
  inferInstanceAs (Decidable (b.rrf_score ≤ a.rrf_score))

instance : IsTotal FusedDoc scoreDesc := ⟨fun a b => le_total b.rrf_score a.rrf_score⟩

instance : IsTrans FusedDoc scoreDesc := ⟨fun _ _ _ h h' => le_trans h' h⟩

/-- `reciprocal_rank_fusion` of `src/app/core/retrieval.py`: accumulate the
RRF scores source by source, then return the entries sorted by score
descending, each entry being the first-encountered document dict extended
with its `rrf_score`.  Python's `sorted` is a stable sort keyed on the score
alone; it is embedded as the (stable) insertion sort with respect to
`scoreDesc`, which produces the identical output list. -/
def reciprocal_rank_fusion (results_dict : List (String × List Doc)) (k : ℕ) :
    List FusedDoc :=
  (buildFused results_dict k).insertionSort scoreDesc

/-- `hybrid_search` of `src/app/core/retrieval.py`: the two backend calls
run under `asyncio.gather` with no `return_exceptions`, so if either raises,
the exception propagates out of `hybrid_search`; otherwise the two result
lists are fused with `results_dict = {"vector": ..., "keyword": ...}` (vector
inserted first) and `k = 60`.  The backend call outcomes are passed in as
`Except` values. -/
def hybrid_search (qdrant_results es_results : Except String (List Doc)) :
    Except String (List FusedDoc) :=
  match qdrant_results, es_results with
  | .ok q, .ok e =>
      .ok (reciprocal_rank_fusion [("vector", q), ("keyword", e)] 60)
  | .error err, _ => .error err
  | _, .error err => .error err

/-- 1-based rank of the first document with content key `c`, `none` when the
key is absent from the list. -/
def rank_in : List Doc → String → Option ℕ
  | [], _ => none
  | d :: ds, c => if key d = c then some 1 else (rank_in ds c).map (· + 1)

/-- Sum of the reciprocal-rank contributions `1 / (k + i + 1)` of every
position `i` (0-based, offset by `r`) holding a document with content key
`c`. -/
def contribSum (k : ℕ) (c : String) : ℕ → List Doc → ℚ
  | _, [] => 0
  | r, d :: ds =>
      (if key d = c then (1 : ℚ) / (k + r + 1) else 0) + contribSum k c (r + 1) ds

/-- The RRF-formula score of key `c` in one source: `1/(k + rank)` with
1-based `rank` when present, `0` when absent. -/
def sourceScore (k : ℕ) (docs : List Doc) (c : String) : ℚ :=
  match rank_in docs c with
  | some r => (1 : ℚ) / (k + r)
  | none => 0

/-- Keys of `l` not in `seen`, in order of first occurrence — the insertion
order of a Python dict populated while scanning `l`. -/
def newKeys (seen : List String) : List String → List String
  | [] => []
  | c :: cs => if c ∈ seen then newKeys seen cs else c :: newKeys (c :: seen) cs


/-! ### Rerank stage (`src/app/core/rerank.py`) -/

/-- One entry of the reranker API's `results` array; every JSON field may be
absent (`item.get` is used with fallbacks in the source). -/
structure RerankItem where
  index : Option Int
  document_index : Option Int
  relevance_score : Option ℚ
  score : Option ℚ
deriving DecidableEq, Repr

/-- Parsed reranker response body: either the `results` key is absent
(`noResultsField`, the "format không như mong đợi" fallback branch) or it
holds a list of items. -/
inductive RerankResponse
  | noResultsField
  | withResults (items : List RerankItem)
deriving DecidableEq, Repr

/-- A document returned by `rerank_documents`: the original fused document
dict, with the `rerank_score` key set (`some`) on the success path and
absent (`none`) on the fallback paths, which return the input dicts
unchanged. -/
structure RerankOut where
  doc : FusedDoc
  rerank_score : Option ℚ
deriving DecidableEq, Repr

/-- `idx = item.get("index", item.get("document_index", 0))` and
`score = item.get("relevance_score", item.get("score", 0))`. -/
def toIdxScore (it : RerankItem) : Int × ℚ :=
  (it.index.getD (it.document_index.getD 0),
   it.relevance_score.getD (it.score.getD 0))

/-- `ranked_indices`: the `(idx, score)` pairs extracted from
`rerank_results["results"][:top_n]`. -/
def rankedIndices (items : List RerankItem) (top_n : ℕ) : List (Int × ℚ) :=
  (items.take top_n).map toIdxScore

/-- Python list indexing `l[i]`: non-negative indices from the front,
negative indices from the end; `none` models the `IndexError` raised when
`i` is out of range (in `rerank_documents` this only happens for
`i < -len(l)`, since non-negative indices are guarded by `idx < len`). -/
def pyGet? (l : List α) (i : Int) : Option α :=
  if 0 ≤ i then l[i.toNat]?
  else if 0 ≤ i + l.length then l[(i + l.length).toNat]?
  else none

/-- The `for idx, score in ranked_indices` loop building `reranked_docs`:
entries with `idx < len(documents)` select `documents[idx]` (negative
indices count from the end) and get `rerank_score` set; entries with
`idx ≥ len(documents)` are silently skipped.  The whole loop runs inside the
`try` block, so an `IndexError` (`pyGet? = none`, possible for
`idx < -len(documents)`) aborts the loop — modelled by returning `none`. -/
def buildReranked (documents : List FusedDoc) : List (Int × ℚ) → Option (List RerankOut)
  | [] => some []
  | (idx, sc) :: rest =>
      if idx < (documents.length : Int) then
        match pyGet? documents idx with
        | none => none
        | some d => (buildReranked documents rest).map (fun l => ⟨d, some sc⟩ :: l)
      else buildReranked documents rest

/-- `rerank_documents` of `src/app/core/rerank.py`.  `response` is the
outcome of the HTTP call to the reranker: `.error` for any raised exception
(connection error, timeout, non-2xx status, JSON decode failure), `.ok` for
a parsed body.  Fallback paths (exception, missing `results` key, or an
`IndexError` while building the result) return the first `top_n` input
dicts unchanged (`rerank_score` absent). -/
def rerank_documents (documents : List FusedDoc) (top_n : ℕ)
    (response : Except Unit RerankResponse) : List RerankOut :=
  if documents.isEmpty then []
  else
    match response with
    | .error _ => (documents.take top_n).map (fun d => ⟨d, none⟩)
    | .ok .noResultsField => (documents.take top_n).map (fun d => ⟨d, none⟩)
    | .ok (.withResults items) =>
        match buildReranked documents (rankedIndices items top_n) with
        | some l => l
        | none => (documents.take top_n).map (fun d => ⟨d, none⟩)

/-- The JSON body `rerank_documents` posts to the reranker API:
`{"query": query, "documents": texts, "top_n": top_n}` with
`texts = [doc.get("content", "") for doc in documents]` — all candidate
contents, computed before the `try` block. -/
structure RerankRequest where
  query : String
  documents : List String
  top_n : ℕ
deriving DecidableEq, Repr

/-- The request payload submitted by `rerank_documents` (sent whenever
`documents` is non-empty, in one batched call). -/
def rerank_request (query : String) (documents : List FusedDoc) (top_n : ℕ) :
    RerankRequest :=
  ⟨query, documents.map (fun d => key d.doc), top_n⟩

/-! ### Query endpoint (`src/app/main.py`) -/

/-- One element of `QueryResponse.contexts`: built from a reranked doc as
`content = doc.get("content", "")`,
`score = doc.get("rerank_score", doc.get("rrf_score", 0))` (fused docs
always carry `rrf_score`), `source = doc.get("source", "unknown")`. -/
structure Context where
  content : String
  score : ℚ
  source : String
deriving DecidableEq, Repr

/-- Observable outcome of `query_endpoint`: the "not found" answer for an
empty candidate set, a normal answer carrying its contexts, or the
`HTTPException(status_code=500)` raised by the catch-all `except` branch. -/
inductive EndpointResult
  | notFoundAnswer
  | answer (contexts : List Context)
  | httpError (code : ℕ)
deriving DecidableEq, Repr

/-- `query_endpoint` of `src/app/main.py`: hybrid search, then (for a
non-empty candidate list) reranking and answer generation.  The generated
answer text comes from the external LLM and is not modelled; the `contexts`
of the response are.  Any exception — in particular one propagating out of
`hybrid_search` when a backend call fails — is caught by the endpoint's
`except` branch, which raises `HTTPException(status_code=500)`. -/
def query_endpoint (qdrant_results es_results : Except String (List Doc))
    (top_n : ℕ) (rerank_response : Except Unit RerankResponse) : EndpointResult :=
  match hybrid_search qdrant_results es_results with
  | .error _ => .httpError 500
  | .ok candidates =>
      if candidates.isEmpty then .notFoundAnswer
      else
        .answer ((rerank_documents candidates top_n rerank_response).map (fun r =>
          ⟨key r.doc.doc, r.rerank_score.getD r.doc.rrf_score,
           r.doc.doc.source.getD "unknown"⟩))

/-! ### `RetrievalService` (`src/services/retrieval.py`) -/

/-- A langchain `Document` as returned by `EnsembleRetriever.invoke`:
`page_content` plus opaque metadata. -/
structure Document where
  page_content : String
  metadata : ℕ
deriving DecidableEq, Repr

/-- One record of `retrieve_with_scores`'s result:
`{"content": ..., "metadata": ..., "score": ..., "reranked": ...}`. -/
structure RetrievedRecord where
  content : String
  metadata : ℕ
  score : ℚ
  reranked : Bool
deriving DecidableEq, Repr

/-- The dict comprehension
`content_to_doc = {doc.page_content: doc for doc in documents}`: later
documents overwrite earlier ones with equal content, so lookup finds the
last matching document; `none` models the `KeyError` when the reranker
returns an unknown content string. -/
def content_to_doc (documents : List Document) (c : String) : Option Document :=
  documents.reverse.find? (fun d => d.page_content = c)

/-- `RetrievalService.retrieve_with_scores`.  `ensemble_docs` is the list
returned by the external `EnsembleRetriever.invoke(query)`; `rerank_fn`
models `src.models.reranker.rerank_documents` (given the query, the
`(content, dummy_score)` pairs and `top_k`, it returns `(content, score)`
pairs).  Result `none` models a raised `KeyError`. -/
def retrieve_with_scores (query : String) (ensemble_docs : List Document)
    (k : ℕ) (use_rerank : Bool)
    (rerank_fn : String → List (String × ℚ) → ℕ → List (String × ℚ)) :
    Option (List RetrievedRecord) :=
  let documents := ensemble_docs.take (if use_rerank then k * 2 else k)
  if use_rerank && !documents.isEmpty then
    let docs_to_rerank := documents.map (fun d => (d.page_content, (0 : ℚ)))
    let reranked := rerank_fn query docs_to_rerank k
    reranked.mapM (fun p => (content_to_doc documents p.1).map
      (fun d => ⟨p.1, d.metadata, p.2, true⟩))
  else
    some ((documents.take k).map (fun d =>
      ⟨d.page_content, d.metadata, 0, false⟩))

/-- `RetrievalService.retrieve` (same structure, returning the `Document`s
themselves). -/
def retrieve (query : String) (ensemble_docs : List Document) (k : ℕ)
    (use_rerank : Bool)
    (rerank_fn : String → List (String × ℚ) → ℕ → List (String × ℚ)) :
    Option (List Document) :=
  let documents := ensemble_docs.take (if use_rerank then k * 2 else k)
  if use_rerank && !documents.isEmpty then
    let reranked := rerank_fn query (documents.map (fun d => (d.page_content, (0 : ℚ)))) k
    reranked.mapM (fun p => content_to_doc documents p.1)
  else
    some (documents.take k)

/-! ### Sample documents used in witnesses and counterexamples -/

/-- Sample semantic-source document with content `"a"`. -/
def dA : Doc := ⟨some "a", some "qdrant", 1⟩

/-- Sample semantic-source document with content `"b"`. -/
def dB : Doc := ⟨some "b", some "qdrant", 2⟩

/-- Sample lexical-source document with the same content `"b"`. -/
def dB2 : Doc := ⟨some "b", some "elasticsearch", 3⟩

/-- Sample lexical-source document with content `"c"`. -/
def dC : Doc := ⟨some "c", some "elasticsearch", 4⟩

/-- Sample document with no `content` key. -/
def dNone : Doc := ⟨none, some "qdrant", 5⟩

/-- Sample document whose `content` is the empty string. -/
def dEmpty : Doc := ⟨some "", some "elasticsearch", 6⟩

end RagPipeline

namespace RagPipeline

/-! ### Helper lemmas on the fusion accumulator -/

/-- Score stored for key `c` in the accumulator (dict lookup in
`fused_scores`; `0` when absent, matching the dict initialisation). -/
def entryScore (m : List FusedDoc) (c : String) : ℚ :=
  ((m.find? (fun f => fkey f = c)).map (·.rrf_score)).getD 0

/-- Stored document for key `c` (dict lookup in `doc_metadata`). -/
def entryDoc (m : List FusedDoc) (c : String) : Option Doc :=
  (m.find? (fun f => fkey f = c)).map (·.doc)

theorem fkey_bump (c : String) (q : ℚ) (f : FusedDoc) : fkey (bump c q f) = fkey f := by
  unfold bump
  split <;> simp [fkey]

theorem doc_bump (c : String) (q : ℚ) (f : FusedDoc) : (bump c q f).doc = f.doc := by
  unfold bump
  split <;> rfl

theorem keys_map_bump (m : List FusedDoc) (c : String) (q : ℚ) :
    (m.map (bump c q)).map fkey = m.map fkey := by
  induction m with
  | nil => rfl
  | cons f m ih => simp [fkey_bump, ih]

theorem any_key_iff (m : List FusedDoc) (c : String) :
    (m.any (fun f => fkey f = c)) = true ↔ c ∈ m.map fkey := by
  simp [List.any_eq_true, List.mem_map]

theorem findKey_cons (f : FusedDoc) (m : List FusedDoc) (c : String) :
    (f :: m).find? (fun g => fkey g = c)
      = if fkey f = c then some f else m.find? (fun g => fkey g = c) := by
  by_cases h : fkey f = c
  · rw [List.find?_cons_of_pos _ (by simpa using h), if_pos h]
  · rw [List.find?_cons_of_neg _ (by simpa using h), if_neg h]

theorem entryScore_nil (c : String) : entryScore [] c = 0 := rfl

theorem entryDoc_nil (c : String) : entryDoc [] c = none := rfl

theorem entryScore_cons (f : FusedDoc) (m : List FusedDoc) (c : String) :
    entryScore (f :: m) c = if fkey f = c then f.rrf_score else entryScore m c := by
  unfold entryScore
  rw [findKey_cons]
  by_cases h : fkey f = c
  · rw [if_pos h, if_pos h]
    rfl
  · rw [if_neg h, if_neg h]

theorem entryDoc_cons (f : FusedDoc) (m : List FusedDoc) (c : String) :
    entryDoc (f :: m) c = if fkey f = c then some f.doc else entryDoc m c := by
  unfold entryDoc
  rw [findKey_cons]
  by_cases h : fkey f = c
  · rw [if_pos h, if_pos h]
    rfl
  · rw [if_neg h, if_neg h]

theorem entryScore_map_bump (m : List FusedDoc) (c0 c : String) (q : ℚ) :
    entryScore (m.map (bump c0 q)) c
      = entryScore m c + if c0 = c ∧ c ∈ m.map fkey then q else 0 := by
  induction m with
  | nil => simp [entryScore]
  | cons f m ih =>
    have hb : fkey (bump c0 q f) = fkey f := fkey_bump c0 q f
    by_cases hf : fkey f = c
    · rw [List.map_cons, entryScore_cons, hb, if_pos hf, entryScore_cons, if_pos hf]
      have hmem : c ∈ (f :: m).map fkey := by simp [List.map_cons, ← hf]
      by_cases h0 : c0 = c
      · rw [if_pos ⟨h0, hmem⟩]
        have hc0 : fkey f = c0 := by rw [hf, h0]
        simp [bump, hc0]
      · rw [if_neg (fun hand => h0 hand.1)]
        have hc0 : ¬ fkey f = c0 := fun hc => h0 (by rw [← hc, hf])
        simp [bump, hc0]
    · rw [List.map_cons, entryScore_cons, hb, if_neg hf, entryScore_cons, if_neg hf, ih]
      have hiff : c ∈ (f :: m).map fkey ↔ c ∈ m.map fkey := by
        rw [List.map_cons, List.mem_cons]
        exact or_iff_right (fun h => hf h.symm)
      by_cases h0 : c0 = c
      · by_cases hm : c ∈ m.map fkey
        · rw [if_pos ⟨h0, hm⟩, if_pos ⟨h0, hiff.mpr hm⟩]
        · rw [if_neg (fun hand => hm hand.2), if_neg (fun hand => hm (hiff.mp hand.2))]
      · rw [if_neg (fun hand => h0 hand.1), if_neg (fun hand => h0 hand.1)]

theorem entryDoc_map_bump (m : List FusedDoc) (c0 c : String) (q : ℚ) :
    entryDoc (m.map (bump c0 q)) c = entryDoc m c := by
  induction m with
  | nil => rfl
  | cons f m ih =>
    rw [List.map_cons, entryDoc_cons, fkey_bump, doc_bump, entryDoc_cons, ih]

end RagPipeline

namespace RagPipeline

theorem entryScore_not_mem (m : List FusedDoc) (c : String) (h : c ∉ m.map fkey) :
    entryScore m c = 0 := by
  unfold entryScore
  rw [List.find?_eq_none.mpr]
  · rfl
  · intro f hf
    simp only [decide_eq_true_eq]
    exact fun he => h (by rw [← he]; exact List.mem_map_of_mem fkey hf)

theorem entryDoc_isSome (m : List FusedDoc) (c : String) (h : c ∈ m.map fkey) :
    (entryDoc m c).isSome := by
  unfold entryDoc
  obtain ⟨f, hf, he⟩ := List.mem_map.mp h
  cases hfind : m.find? (fun g => fkey g = c) with
  | some g => simp
  | none =>
    rw [List.find?_eq_none] at hfind
    exact absurd (by simpa using he) (by simpa using hfind f hf)

theorem keys_addDoc (m : List FusedDoc) (d : Doc) (q : ℚ) :
    (addDoc m d q).map fkey
      = if key d ∈ m.map fkey then m.map fkey else m.map fkey ++ [key d] := by
  unfold addDoc
  by_cases h : key d ∈ m.map fkey
  · rw [if_pos ((any_key_iff m (key d)).mpr h), keys_map_bump, if_pos h]
  · rw [if_neg (fun ha => h ((any_key_iff m (key d)).mp ha)), if_neg h, List.map_append]
    rfl

theorem entryScore_append_single (m : List FusedDoc) (e : FusedDoc) (c : String) :
    entryScore (m ++ [e]) c
      = if c ∈ m.map fkey then entryScore m c
        else if fkey e = c then e.rrf_score else 0 := by
  induction m with
  | nil =>
    rw [List.nil_append, entryScore_cons, entryScore_nil]
    simp
  | cons f m ih =>
    rw [List.cons_append, entryScore_cons, entryScore_cons, ih]
    by_cases hf : fkey f = c
    · rw [if_pos hf, if_pos hf, if_pos (show c ∈ (f :: m).map fkey by simp [← hf])]
    · rw [if_neg hf, if_neg hf]
      have hiff : c ∈ (f :: m).map fkey ↔ c ∈ m.map fkey := by
        rw [List.map_cons, List.mem_cons]
        exact or_iff_right (fun hh => hf hh.symm)
      by_cases hm : c ∈ m.map fkey
      · rw [if_pos hm, if_pos (hiff.mpr hm)]
      · rw [if_neg hm, if_neg (fun hh => hm (hiff.mp hh))]

theorem entryScore_addDoc (m : List FusedDoc) (d : Doc) (q : ℚ) (c : String) :
    entryScore (addDoc m d q) c = entryScore m c + if key d = c then q else 0 := by
  unfold addDoc
  by_cases h : key d ∈ m.map fkey
  · rw [if_pos ((any_key_iff m (key d)).mpr h), entryScore_map_bump]
    by_cases h0 : key d = c
    · rw [if_pos ⟨h0, h0 ▸ h⟩, if_pos h0]
    · rw [if_neg (fun hand => h0 hand.1), if_neg h0]
  · rw [if_neg (fun ha => h ((any_key_iff m (key d)).mp ha)), entryScore_append_single]
    by_cases hm : c ∈ m.map fkey
    · rw [if_pos hm, if_neg (fun h0 : key d = c => h (h0 ▸ hm)), add_zero]
    · rw [if_neg hm, entryScore_not_mem m c hm, zero_add]
      rfl

theorem entryDoc_append (m₁ m₂ : List FusedDoc) (c : String) :
    entryDoc (m₁ ++ m₂) c = (entryDoc m₁ c).or (entryDoc m₂ c) := by
  unfold entryDoc
  rw [List.find?_append]
  cases m₁.find? (fun f => fkey f = c) <;> simp

theorem entryDoc_addDoc (m : List FusedDoc) (d : Doc) (q : ℚ) (c : String) :
    entryDoc (addDoc m d q) c
      = (entryDoc m c).or (if key d = c then some d else none) := by
  unfold addDoc
  by_cases h : key d ∈ m.map fkey
  · rw [if_pos ((any_key_iff m (key d)).mpr h), entryDoc_map_bump]
    by_cases h0 : key d = c
    · subst h0
      obtain ⟨x, hx⟩ := Option.isSome_iff_exists.mp (entryDoc_isSome m (key d) h)
      rw [hx]
      simp
    · rw [if_neg h0, Option.or_none]
  · rw [if_neg (fun ha => h ((any_key_iff m (key d)).mp ha)), entryDoc_append]
    congr 1
    rw [entryDoc_cons, entryDoc_nil]
    rfl

end RagPipeline

namespace RagPipeline

/-! ### Invariants of the per-source accumulation loop -/

theorem entryScore_processDocs (k : ℕ) (ds : List Doc) :
    ∀ (r : ℕ) (m : List FusedDoc) (c : String),
      entryScore (processDocs k r m ds) c = entryScore m c + contribSum k c r ds := by
  induction ds with
  | nil => intro r m c; simp [processDocs, contribSum]
  | cons d ds ih =>
    intro r m c
    rw [processDocs, ih, entryScore_addDoc, contribSum, add_assoc]

theorem entryDoc_processDocs (k : ℕ) (ds : List Doc) :
    ∀ (r : ℕ) (m : List FusedDoc) (c : String),
      entryDoc (processDocs k r m ds) c
        = (entryDoc m c).or (ds.find? (fun d => key d = c)) := by
  induction ds with
  | nil => intro r m c; simp [processDocs]
  | cons d ds ih =>
    intro r m c
    rw [processDocs, ih, entryDoc_addDoc, Option.or_assoc]
    congr 1
    by_cases h : key d = c
    · rw [if_pos h, List.find?_cons_of_pos _ (by simpa using h)]
      simp
    · rw [if_neg h, List.find?_cons_of_neg _ (by simpa using h)]
      simp

theorem mem_keys_processDocs (k : ℕ) (ds : List Doc) :
    ∀ (r : ℕ) (m : List FusedDoc) (c : String),
      c ∈ (processDocs k r m ds).map fkey ↔ c ∈ m.map fkey ∨ c ∈ ds.map key := by
  induction ds with
  | nil => intro r m c; simp [processDocs]
  | cons d ds ih =>
    intro r m c
    rw [processDocs, ih, keys_addDoc]
    by_cases h : key d ∈ m.map fkey
    · rw [if_pos h]
      simp only [List.map_cons, List.mem_cons]
      constructor
      · tauto
      · rintro (hm | he | hd)
        · tauto
        · exact Or.inl (he ▸ h)
        · tauto
    · rw [if_neg h]
      simp only [List.mem_append, List.mem_singleton, List.map_cons, List.mem_cons]
      tauto

theorem nodup_keys_addDoc (m : List FusedDoc) (d : Doc) (q : ℚ)
    (h : (m.map fkey).Nodup) : ((addDoc m d q).map fkey).Nodup := by
  rw [keys_addDoc]
  by_cases hm : key d ∈ m.map fkey
  · rw [if_pos hm]; exact h
  · rw [if_neg hm]
    rw [List.nodup_append]
    exact ⟨h, List.nodup_singleton _, by simpa using hm⟩

theorem nodup_keys_processDocs (k : ℕ) (ds : List Doc) :
    ∀ (r : ℕ) (m : List FusedDoc), (m.map fkey).Nodup →
      ((processDocs k r m ds).map fkey).Nodup := by
  induction ds with
  | nil => intro r m h; exact h
  | cons d ds ih =>
    intro r m h
    rw [processDocs]
    exact ih _ _ (nodup_keys_addDoc m d _ h)

/-! ### Insertion order of the accumulated keys -/

theorem newKeys_congr (cs : List String) :
    ∀ s₁ s₂ : List String, (∀ x, x ∈ s₁ ↔ x ∈ s₂) → newKeys s₁ cs = newKeys s₂ cs := by
  induction cs with
  | nil => intro s₁ s₂ _; rfl
  | cons c cs ih =>
    intro s₁ s₂ h
    rw [newKeys, newKeys]
    by_cases hc : c ∈ s₁
    · rw [if_pos hc, if_pos ((h c).mp hc)]
      exact ih s₁ s₂ h
    · rw [if_neg hc, if_neg (fun h2 => hc ((h c).mpr h2))]
      rw [ih (c :: s₁) (c :: s₂) (by intro x; simp [h x])]

theorem keys_processDocs (k : ℕ) (ds : List Doc) :
    ∀ (r : ℕ) (m : List FusedDoc),
      (processDocs k r m ds).map fkey
        = m.map fkey ++ newKeys (m.map fkey) (ds.map key) := by
  induction ds with
  | nil => intro r m; simp [processDocs, newKeys]
  | cons d ds ih =>
    intro r m
    rw [processDocs, ih, keys_addDoc, List.map_cons, newKeys]
    by_cases h : key d ∈ m.map fkey
    · rw [if_pos h, if_pos h]
    · rw [if_neg h, if_neg h, List.append_assoc, List.singleton_append]
      congr 1
      congr 1
      exact newKeys_congr _ _ _ (by intro x; simp [or_comm])

end RagPipeline

namespace RagPipeline

theorem mem_newKeys (cs : List String) :
    ∀ (s : List String) (x : String), x ∈ newKeys s cs ↔ x ∉ s ∧ x ∈ cs := by
  induction cs with
  | nil => intro s x; simp [newKeys]
  | cons c cs ih =>
    intro s x
    rw [newKeys]
    by_cases hc : c ∈ s
    · rw [if_pos hc, ih]
      simp only [List.mem_cons]
      constructor
      · rintro ⟨hx, h2⟩
        exact ⟨hx, Or.inr h2⟩
      · rintro ⟨hx, he | h2⟩
        · exact absurd (he ▸ hc) hx
        · exact ⟨hx, h2⟩
    · rw [if_neg hc, List.mem_cons, ih]
      simp only [List.mem_cons, not_or]
      by_cases he : x = c
      · subst he
        simp [hc]
      · simp [he]

theorem nodup_newKeys (cs : List String) : ∀ s : List String, (newKeys s cs).Nodup := by
  induction cs with
  | nil => intro s; simp [newKeys]
  | cons c cs ih =>
    intro s
    rw [newKeys]
    by_cases hc : c ∈ s
    · rw [if_pos hc]
      exact ih s
    · rw [if_neg hc]
      refine List.nodup_cons.mpr ⟨?_, ih (c :: s)⟩
      intro hmem
      exact ((mem_newKeys cs (c :: s) c).mp hmem).1 (List.mem_cons_self c s)

theorem newKeys_append (xs : List String) :
    ∀ (ys s : List String),
      newKeys s (xs ++ ys) = newKeys s xs ++ newKeys (xs ++ s) ys := by
  induction xs with
  | nil => intro ys s; simp [newKeys]
  | cons c xs ih =>
    intro ys s
    rw [List.cons_append, newKeys, newKeys]
    by_cases hc : c ∈ s
    · rw [if_pos hc, if_pos hc, ih]
      congr 1
      refine newKeys_congr _ _ _ (fun x => ?_)
      simp only [List.cons_append, List.mem_cons, List.mem_append]
      constructor
      · tauto
      · rintro (he | h | h)
        · exact Or.inr (he ▸ hc)
        · tauto
        · tauto
    · rw [if_neg hc, if_neg hc, ih, List.cons_append]
      congr 2
      refine newKeys_congr _ _ _ (fun x => ?_)
      simp only [List.mem_append, List.mem_cons]
      tauto

/-! ### The two-source accumulator of `hybrid_search` -/

theorem buildFused_pair (sem lex : List Doc) (k : ℕ) :
    buildFused [("vector", sem), ("keyword", lex)] k
      = processDocs k 0 (processDocs k 0 [] sem) lex := rfl

theorem entryScore_buildFused (sem lex : List Doc) (k : ℕ) (c : String) :
    entryScore (buildFused [("vector", sem), ("keyword", lex)] k) c
      = contribSum k c 0 sem + contribSum k c 0 lex := by
  rw [buildFused_pair, entryScore_processDocs, entryScore_processDocs, entryScore_nil,
    zero_add]

theorem entryDoc_buildFused (sem lex : List Doc) (k : ℕ) (c : String) :
    entryDoc (buildFused [("vector", sem), ("keyword", lex)] k) c
      = (sem ++ lex).find? (fun d => key d = c) := by
  rw [buildFused_pair, entryDoc_processDocs, entryDoc_processDocs, entryDoc_nil,
    List.find?_append]
  simp

theorem mem_keys_buildFused (sem lex : List Doc) (k : ℕ) (c : String) :
    c ∈ (buildFused [("vector", sem), ("keyword", lex)] k).map fkey
      ↔ c ∈ sem.map key ∨ c ∈ lex.map key := by
  rw [buildFused_pair, mem_keys_processDocs, mem_keys_processDocs]
  simp

theorem nodup_keys_buildFused (sem lex : List Doc) (k : ℕ) :
    ((buildFused [("vector", sem), ("keyword", lex)] k).map fkey).Nodup := by
  rw [buildFused_pair]
  exact nodup_keys_processDocs k lex 0 _ (nodup_keys_processDocs k sem 0 [] (by simp))

theorem keys_buildFused (sem lex : List Doc) (k : ℕ) :
    (buildFused [("vector", sem), ("keyword", lex)] k).map fkey
      = newKeys [] ((sem ++ lex).map key) := by
  rw [buildFused_pair, keys_processDocs, keys_processDocs, List.map_append,
    newKeys_append]
  simp only [List.map_nil, List.nil_append]
  congr 1
  refine newKeys_congr _ _ _ (fun x => ?_)
  rw [mem_newKeys]
  simp

/-! ### Transfer through the stable sort -/

theorem find?_of_mem_nodup (m : List FusedDoc) (f : FusedDoc)
    (hnd : (m.map fkey).Nodup) (hmem : f ∈ m) :
    m.find? (fun g => fkey g = fkey f) = some f := by
  induction m with
  | nil => cases hmem
  | cons g m ih =>
    rw [List.map_cons, List.nodup_cons] at hnd
    rcases List.mem_cons.mp hmem with he | hm
    · subst he
      exact List.find?_cons_of_pos _ (by simp)
    · have hne : ¬ (fkey g = fkey f) := fun he => hnd.1 (he ▸ List.mem_map_of_mem fkey hm)
      rw [List.find?_cons_of_neg _ (by simpa using hne)]
      exact ih hnd.2 hm

theorem mem_rrf_iff (results_dict : List (String × List Doc)) (k : ℕ) (f : FusedDoc) :
    f ∈ reciprocal_rank_fusion results_dict k ↔ f ∈ buildFused results_dict k :=
  (List.perm_insertionSort scoreDesc (buildFused results_dict k)).mem_iff

theorem score_of_mem_rrf (sem lex : List Doc) (k : ℕ) (f : FusedDoc)
    (hf : f ∈ reciprocal_rank_fusion [("vector", sem), ("keyword", lex)] k) :
    f.rrf_score = contribSum k (fkey f) 0 sem + contribSum k (fkey f) 0 lex := by
  have hmem : f ∈ buildFused [("vector", sem), ("keyword", lex)] k :=
    (mem_rrf_iff _ k f).mp hf
  have hfind := find?_of_mem_nodup _ f (nodup_keys_buildFused sem lex k) hmem
  have hs := entryScore_buildFused sem lex k (fkey f)
  rw [entryScore, hfind] at hs
  simpa using hs

theorem doc_of_mem_rrf (sem lex : List Doc) (k : ℕ) (f : FusedDoc)
    (hf : f ∈ reciprocal_rank_fusion [("vector", sem), ("keyword", lex)] k) :
    (sem ++ lex).find? (fun d => key d = fkey f) = some f.doc := by
  have hmem : f ∈ buildFused [("vector", sem), ("keyword", lex)] k :=
    (mem_rrf_iff _ k f).mp hf
  have hfind := find?_of_mem_nodup _ f (nodup_keys_buildFused sem lex k) hmem
  have hd := entryDoc_buildFused sem lex k (fkey f)
  rw [entryDoc, hfind] at hd
  simpa using hd.symm

/-! ### From positional contributions to the RRF rank formula -/

theorem contribSum_not_mem (k : ℕ) (c : String) (ds : List Doc) :
    ∀ r, c ∉ ds.map key → contribSum k c r ds = 0 := by
  induction ds with
  | nil => intro r _; rfl
  | cons d ds ih =>
    intro r h
    rw [List.map_cons, List.mem_cons, not_or] at h
    rw [contribSum, if_neg (fun he => h.1 he.symm), zero_add]
    exact ih _ h.2

theorem contribSum_eq_sourceScore_aux (k : ℕ) (ds : List Doc) :
    ∀ (r : ℕ) (c : String), (ds.map key).Nodup →
      contribSum k c r ds
        = match rank_in ds c with
          | some j => (1 : ℚ) / (k + r + j)
          | none => 0 := by
  induction ds with
  | nil => intro r c _; rfl
  | cons d ds ih =>
    intro r c hnd
    rw [List.map_cons, List.nodup_cons] at hnd
    rw [contribSum, rank_in]
    by_cases h : key d = c
    · rw [if_pos h, if_pos h, contribSum_not_mem k c ds _ (h ▸ hnd.1), add_zero]
      push_cast
      ring_nf
    · rw [if_neg h, if_neg h, zero_add, ih (r + 1) c hnd.2]
      cases hri : rank_in ds c with
      | none => simp
      | some j =>
        show (1 : ℚ) / (↑k + ↑(r + 1) + ↑j) = 1 / (↑k + ↑r + ↑(j + 1))
        push_cast
        ring_nf

theorem contribSum_eq_sourceScore (k : ℕ) (ds : List Doc) (c : String)
    (h : (ds.map key).Nodup) : contribSum k c 0 ds = sourceScore k ds c := by
  rw [contribSum_eq_sourceScore_aux k ds 0 c h, sourceScore]
  cases rank_in ds c with
  | none => rfl
  | some j => norm_num

end RagPipeline

namespace RagPipeline

theorem countP_key_le_one (m : List FusedDoc) (c : String)
    (h : (m.map fkey).Nodup) : m.countP (fun f => fkey f = c) ≤ 1 := by
  induction m with
  | nil => simp
  | cons f m ih =>
    rw [List.map_cons, List.nodup_cons] at h
    by_cases hf : fkey f = c
    · rw [List.countP_cons_of_pos _ _ (by simpa using hf)]
      have hz : m.countP (fun g => fkey g = c) = 0 := by
        rw [List.countP_eq_zero]
        intro g hg
        simp only [decide_eq_true_eq]
        exact fun he => h.1 (hf ▸ he ▸ List.mem_map_of_mem fkey hg)
      omega
    · rw [List.countP_cons_of_neg _ _ (by simpa using hf)]
      exact ih h.2

/-- Concrete evaluation of the fusion on the sample inputs (semantic source
returns `[dA, dB]`, lexical source returns `[dB2, dC]`, so content `"b"`
appears in both sources). -/
theorem sample_rrf_eval :
    reciprocal_rank_fusion [("vector", [dA, dB]), ("keyword", [dB2, dC])] 60
      = [⟨dB, 1/62 + 1/61⟩, ⟨dA, 1/61⟩, ⟨dC, 1/62⟩] := by
  norm_num +decide [reciprocal_rank_fusion, buildFused, processDocs, addDoc, bump,
    fkey, key, List.insertionSort, List.orderedInsert, scoreDesc, dA, dB, dB2, dC]

/-- Concrete evaluation with a tied pair: each source returns a single
distinct document, so both fused entries score `1/61`. -/
theorem sample_rrf_tie_eval :
    reciprocal_rank_fusion [("vector", [dA]), ("keyword", [dC])] 60
      = [⟨dA, 1/61⟩, ⟨dC, 1/61⟩]
    ∧ buildFused [("vector", [dA]), ("keyword", [dC])] 60
      = [⟨dA, 1/61⟩, ⟨dC, 1/61⟩] := by
  constructor <;>
    norm_num +decide [reciprocal_rank_fusion, buildFused, processDocs, addDoc, bump,
      fkey, key, List.insertionSort, List.orderedInsert, scoreDesc, dA, dC]

/-- Concrete evaluation where one document lacks the `content` key and one
has empty content: both collapse onto the key `""`. -/
theorem sample_rrf_empty_eval :
    reciprocal_rank_fusion [("vector", [dNone]), ("keyword", [dEmpty])] 60
      = [⟨dNone, 1/61 + 1/61⟩] := by
  norm_num +decide [reciprocal_rank_fusion, buildFused, processDocs, addDoc, bump,
    fkey, key, List.insertionSort, List.orderedInsert, scoreDesc, dNone, dEmpty]

/-! ### Claim theorems: fusion -/

/-- Claim C1 (counterexample).  With the semantic source failing
(`asyncio.gather` propagating its exception) and the lexical source
returning `[dA]`, `hybrid_search` does not return the surviving source's
fused list — it propagates the error — and the endpoint answers with the
raised `HTTPException(500)`, contradicting "the pipeline never raises to
its caller under such partial failure". -/
theorem hybrid_search_single_failure_counterexample :
    hybrid_search (.error "timeout") (.ok [dA])
        ≠ .ok (reciprocal_rank_fusion [("vector", []), ("keyword", [dA])] 60)
    ∧ query_endpoint (.error "timeout") (.ok [dA]) 5 (.ok (.withResults []))
        = .httpError 500 := by
  exact ⟨by simp [hybrid_search], rfl⟩

/-- Claim C1 (amended).  If either search source raises (or times out with a
raised timeout error) during fan-out, `hybrid_search` propagates the
exception instead of substituting an empty ranked list, and `query_endpoint`
catches it and raises `HTTPException(status_code=500)`; the surviving
source's results are discarded. -/
theorem hybrid_search_single_failure_propagates (e : String) (docs : List Doc)
    (top_n : ℕ) (rr : Except Unit RerankResponse) :
    hybrid_search (.error e) (.ok docs) = .error e
    ∧ hybrid_search (.ok docs) (.error e) = .error e
    ∧ query_endpoint (.error e) (.ok docs) top_n rr = .httpError 500
    ∧ query_endpoint (.ok docs) (.error e) top_n rr = .httpError 500 :=
  ⟨rfl, rfl, rfl, rfl⟩

/-- Claim C2.  For input ranked lists whose content keys are distinct within
each source (so that `rank_in_source` is well defined), every fused entry's
`rrf_score` equals the sum over the two sources of `1/(k + rank)` with
1-based rank, a source contributing `0` when the key is absent
(`sourceScore`); in particular a key at rank `r1` in the semantic list and
`r2` in the lexical list scores `1/(k+r1) + 1/(k+r2)`, and a key present
only in the semantic list scores `1/(k+r1)`. -/
theorem rrf_score_formula (sem lex : List Doc) (k : ℕ)
    (hs : (sem.map key).Nodup) (hl : (lex.map key).Nodup) :
    ∀ f ∈ reciprocal_rank_fusion [("vector", sem), ("keyword", lex)] k,
      f.rrf_score = sourceScore k sem (fkey f) + sourceScore k lex (fkey f) := by
  intro f hf
  rw [score_of_mem_rrf sem lex k f hf, contribSum_eq_sourceScore k sem _ hs,
    contribSum_eq_sourceScore k lex _ hl]

/-- Witness for C2: on the sample inputs, the fused entry for content `"b"`
(rank 2 semantic, rank 1 lexical) scores `1/62 + 1/61`. -/
theorem rrf_score_formula_witness :
    (⟨dB, 1/62 + 1/61⟩ : FusedDoc).rrf_score
      = sourceScore 60 [dA, dB] (fkey ⟨dB, 1/62 + 1/61⟩)
        + sourceScore 60 [dB2, dC] (fkey ⟨dB, 1/62 + 1/61⟩) :=
  rrf_score_formula [dA, dB] [dB2, dC] 60 (by decide) (by decide)
    ⟨dB, 1/62 + 1/61⟩ (by rw [sample_rrf_eval]; simp)

/-- Claim C5.  The fusion output contains every distinct content key present
in either input exactly once: its key list has no duplicates, and a key is
in the output iff it is in one of the inputs. -/
theorem fusion_keys_exactly_once (sem lex : List Doc) (k : ℕ) :
    ((reciprocal_rank_fusion [("vector", sem), ("keyword", lex)] k).map fkey).Nodup
    ∧ ∀ c : String,
        c ∈ (reciprocal_rank_fusion [("vector", sem), ("keyword", lex)] k).map fkey
          ↔ (c ∈ sem.map key ∨ c ∈ lex.map key) := by
  have hperm : List.Perm
      ((reciprocal_rank_fusion [("vector", sem), ("keyword", lex)] k).map fkey)
      ((buildFused [("vector", sem), ("keyword", lex)] k).map fkey) :=
    (List.perm_insertionSort scoreDesc _).map fkey
  constructor
  · exact hperm.nodup_iff.mpr (nodup_keys_buildFused sem lex k)
  · intro c
    rw [hperm.mem_iff]
    exact mem_keys_buildFused sem lex k c

/-- Witness for C5 at the sample inputs: key `"b"` (present in both
sources) appears, and the key list `["b", "a", "c"]` is duplicate-free. -/
theorem fusion_keys_exactly_once_witness :
    ((reciprocal_rank_fusion [("vector", [dA, dB]), ("keyword", [dB2, dC])] 60).map
        fkey).Nodup
    ∧ ("b" ∈ (reciprocal_rank_fusion [("vector", [dA, dB]), ("keyword", [dB2, dC])]
          60).map fkey ↔ ("b" ∈ [dA, dB].map key ∨ "b" ∈ [dB2, dC].map key)) :=
  ⟨(fusion_keys_exactly_once [dA, dB] [dB2, dC] 60).1,
   (fusion_keys_exactly_once [dA, dB] [dB2, dC] 60).2 "b"⟩

end RagPipeline

namespace RagPipeline

/-- Claim C6.  The fusion output is sorted in descending order of
`rrf_score`; the accumulator (`buildFused`, the insertion-ordered dict) is
keyed in first-encountered order (`newKeys` over the concatenated source
scan); and the sort is stable: a pair of entries with equal scores that
appears in the accumulator's insertion order also appears in that order in
the sorted output. -/
theorem fusion_sorted_descending_stable (sem lex : List Doc) (k : ℕ) :
    (reciprocal_rank_fusion [("vector", sem), ("keyword", lex)] k).Pairwise
        (fun a b => b.rrf_score ≤ a.rrf_score)
    ∧ (buildFused [("vector", sem), ("keyword", lex)] k).map fkey
        = newKeys [] ((sem ++ lex).map key)
    ∧ ∀ a b : FusedDoc,
        a.rrf_score = b.rrf_score →
        [a, b].Sublist (buildFused [("vector", sem), ("keyword", lex)] k) →
        [a, b].Sublist (reciprocal_rank_fusion [("vector", sem), ("keyword", lex)] k) := by
  refine ⟨?_, keys_buildFused sem lex k, ?_⟩
  · exact List.sorted_insertionSort scoreDesc _
  · intro a b heq hsub
    exact List.pair_sublist_insertionSort (show scoreDesc a b from le_of_eq heq.symm) hsub

/-- Witness for C6: on the tied sample (`[dA]` semantic, `[dC]` lexical,
both entries scoring `1/61`), the tied pair stays in first-encountered
order in the sorted output. -/
theorem fusion_sorted_descending_stable_witness :
    [(⟨dA, 1/61⟩ : FusedDoc), ⟨dC, 1/61⟩].Sublist
      (reciprocal_rank_fusion [("vector", [dA]), ("keyword", [dC])] 60) :=
  (fusion_sorted_descending_stable [dA] [dC] 60).2.2 ⟨dA, 1/61⟩ ⟨dC, 1/61⟩ rfl
    (by rw [sample_rrf_tie_eval.2])

/-- Claim C8.  Deduplication is by exact content-text equality and keeps the
first-encountered document's fields: every fused entry's stored dict is the
first document with its content key in the semantic-then-lexical scan; and
`hybrid_search` fuses with the deterministic source order vector (semantic)
before keyword (lexical). -/
theorem fusion_dedup_first_encounter (sem lex : List Doc) (k : ℕ) :
    (∀ f ∈ reciprocal_rank_fusion [("vector", sem), ("keyword", lex)] k,
        (sem ++ lex).find? (fun d => key d = fkey f) = some f.doc)
    ∧ hybrid_search (.ok sem) (.ok lex)
        = .ok (reciprocal_rank_fusion [("vector", sem), ("keyword", lex)] 60) :=
  ⟨fun f hf => doc_of_mem_rrf sem lex k f hf, rfl⟩

/-- Witness for C8: content `"b"` occurs in both sources; the fused entry
keeps `dB` (the semantic dict, encountered first), not `dB2`. -/
theorem fusion_dedup_first_encounter_witness :
    ([dA, dB] ++ [dB2, dC]).find?
        (fun d => key d = fkey (⟨dB, 1/62 + 1/61⟩ : FusedDoc)) = some dB :=
  (fusion_dedup_first_encounter [dA, dB] [dB2, dC] 60).1 ⟨dB, 1/62 + 1/61⟩
    (by rw [sample_rrf_eval]; simp)

/-- Claim C9.  `reciprocal_rank_fusion` keys a document by
`doc.get("content", "")`, so a document with no `content` field and one with
empty-string content share the key `""`: the output has at most one entry
with key `""` (exactly one when such a document exists), its stored dict is
the first such document encountered, and its score is the sum of the
reciprocal-rank contributions of all such documents from both sources. -/
theorem fusion_empty_content_collapses (sem lex : List Doc) (k : ℕ) :
    (∀ d : Doc, key d = d.content.getD "")
    ∧ (reciprocal_rank_fusion [("vector", sem), ("keyword", lex)] k).countP
        (fun f => fkey f = "") ≤ 1
    ∧ ((∃ d ∈ sem ++ lex, key d = "") →
        ∃ f ∈ reciprocal_rank_fusion [("vector", sem), ("keyword", lex)] k,
          fkey f = "")
    ∧ ∀ f ∈ reciprocal_rank_fusion [("vector", sem), ("keyword", lex)] k,
        fkey f = "" →
          (sem ++ lex).find? (fun d => key d = "") = some f.doc
          ∧ f.rrf_score = contribSum k "" 0 sem + contribSum k "" 0 lex := by
  have hperm : List.Perm
      (reciprocal_rank_fusion [("vector", sem), ("keyword", lex)] k)
      (buildFused [("vector", sem), ("keyword", lex)] k) :=
    List.perm_insertionSort scoreDesc _
  refine ⟨fun d => rfl, ?_, ?_, ?_⟩
  · rw [hperm.countP_eq]
    exact countP_key_le_one _ "" (nodup_keys_buildFused sem lex k)
  · rintro ⟨d, hd, hkd⟩
    have hmemk : ("" : String)
        ∈ (buildFused [("vector", sem), ("keyword", lex)] k).map fkey := by
      refine (mem_keys_buildFused sem lex k "").mpr ?_
      rcases List.mem_append.mp hd with h | h
      · exact Or.inl (hkd ▸ List.mem_map_of_mem key h)
      · exact Or.inr (hkd ▸ List.mem_map_of_mem key h)
    obtain ⟨f, hf, hfk⟩ := List.mem_map.mp ((hperm.map fkey).mem_iff.mpr hmemk)
    exact ⟨f, hf, hfk⟩
  · intro f hf he
    refine ⟨?_, ?_⟩
    · have h := doc_of_mem_rrf sem lex k f hf
      rwa [he] at h
    · have h := score_of_mem_rrf sem lex k f hf
      rwa [he] at h

/-- Witness for C9: with `dNone` (no `content` key) from the semantic source
and `dEmpty` (content `""`) from the lexical source, both collapse into the
single entry `⟨dNone, 1/61 + 1/61⟩`, keeping the first-encountered dict
`dNone` and summing both contributions. -/
theorem fusion_empty_content_collapses_witness :
    ([dNone] ++ [dEmpty]).find? (fun d => key d = "") = some dNone
    ∧ (⟨dNone, 1/61 + 1/61⟩ : FusedDoc).rrf_score
        = contribSum 60 "" 0 [dNone] + contribSum 60 "" 0 [dEmpty] :=
  (fusion_empty_content_collapses [dNone] [dEmpty] 60).2.2.2 ⟨dNone, 1/61 + 1/61⟩
    (by rw [sample_rrf_empty_eval]; simp) rfl

end RagPipeline

namespace RagPipeline

/-! ### Helper lemmas for the rerank stage -/

theorem pyGet?_isSome (l : List FusedDoc) (i : Int)
    (hge : -(l.length : Int) ≤ i) (hlt : i < (l.length : Int)) :
    (pyGet? l i).isSome := by
  unfold pyGet?
  by_cases h0 : 0 ≤ i
  · rw [if_pos h0]
    have hn : i.toNat < l.length := by omega
    simp [List.getElem?_eq_getElem hn]
  · rw [if_neg h0, if_pos (by omega)]
    have hn : (i + l.length).toNat < l.length := by omega
    simp [List.getElem?_eq_getElem hn]

theorem buildReranked_eq_filterMap (documents : List FusedDoc) :
    ∀ ps : List (Int × ℚ), (∀ p ∈ ps, -(documents.length : Int) ≤ p.1) →
      buildReranked documents ps
        = some (ps.filterMap (fun p =>
            if p.1 < (documents.length : Int)
            then (pyGet? documents p.1).map (fun d => ⟨d, some p.2⟩) else none)) := by
  intro ps
  induction ps with
  | nil => intro _; rfl
  | cons p ps ih =>
    intro h
    obtain ⟨idx, sc⟩ := p
    simp only [buildReranked]
    by_cases hlt : idx < (documents.length : Int)
    · rw [if_pos hlt]
      have hsome := pyGet?_isSome documents idx (h (idx, sc) (List.mem_cons_self _ _)) hlt
      obtain ⟨d, hd⟩ := Option.isSome_iff_exists.mp hsome
      rw [hd, ih (fun q hq => h q (List.mem_cons_of_mem _ hq)), List.filterMap_cons]
      simp [hlt, hd]
    · rw [if_neg hlt, ih (fun q hq => h q (List.mem_cons_of_mem _ hq)), List.filterMap_cons]
      simp [hlt]

theorem buildReranked_length_le (documents : List FusedDoc) :
    ∀ (ps : List (Int × ℚ)) (l : List RerankOut),
      buildReranked documents ps = some l → l.length ≤ ps.length := by
  intro ps
  induction ps with
  | nil =>
    intro l hl
    simp only [buildReranked] at hl
    injection hl with hl
    subst hl
    simp
  | cons p ps ih =>
    intro l hl
    obtain ⟨idx, sc⟩ := p
    simp only [buildReranked] at hl
    by_cases hlt : idx < (documents.length : Int)
    · rw [if_pos hlt] at hl
      cases hg : pyGet? documents idx with
      | none => rw [hg] at hl; cases hl
      | some d =>
        rw [hg] at hl
        cases hb : buildReranked documents ps with
        | none => rw [hb] at hl; cases hl
        | some l2 =>
          rw [hb] at hl
          injection hl with hl
          subst hl
          simp only [List.length_cons]
          exact Nat.succ_le_succ (ih l2 hb)
    · rw [if_neg hlt] at hl
      exact Nat.le_succ_of_le (ih l hl)

theorem rerank_documents_success (documents : List FusedDoc) (top_n : ℕ)
    (items : List RerankItem)
    (hvalid : ∀ p ∈ rankedIndices items top_n, -(documents.length : Int) ≤ p.1) :
    rerank_documents documents top_n (.ok (.withResults items))
      = (rankedIndices items top_n).filterMap (fun p =>
          if p.1 < (documents.length : Int)
          then (pyGet? documents p.1).map (fun d => ⟨d, some p.2⟩) else none) := by
  unfold rerank_documents
  by_cases hemp : documents.isEmpty
  · rw [if_pos hemp]
    have hnil : documents = [] := by simpa using hemp
    subst hnil
    symm
    rw [List.filterMap_eq_nil_iff]
    intro p hp
    have h0 : (0 : Int) ≤ p.1 := by simpa using hvalid p hp
    rw [if_neg (by simpa using h0.not_lt)]
  · rw [if_neg hemp]
    show (match buildReranked documents (rankedIndices items top_n) with
      | some l => l
      | none => (documents.take top_n).map (fun d => (⟨d, none⟩ : RerankOut))) = _
    rw [buildReranked_eq_filterMap documents _ hvalid]

theorem rerank_documents_length_le (documents : List FusedDoc) (top_n : ℕ)
    (response : Except Unit RerankResponse) :
    (rerank_documents documents top_n response).length ≤ top_n := by
  unfold rerank_documents
  by_cases hemp : documents.isEmpty
  · rw [if_pos hemp]
    simp
  · rw [if_neg hemp]
    have hfb : ((documents.take top_n).map
        (fun d => (⟨d, none⟩ : RerankOut))).length ≤ top_n := by
      rw [List.length_map, List.length_take]
      exact min_le_left _ _
    match response with
    | .error e => exact hfb
    | .ok .noResultsField => exact hfb
    | .ok (.withResults items) =>
      cases hb : buildReranked documents (rankedIndices items top_n) with
      | none =>
        simp only [hb]
        exact hfb
      | some l =>
        simp only [hb]
        calc l.length
            ≤ (rankedIndices items top_n).length :=
              buildReranked_length_le documents _ l hb
          _ = (items.take top_n).length := by rw [rankedIndices, List.length_map]
          _ ≤ top_n := by rw [List.length_take]; exact min_le_left _ _

end RagPipeline

namespace RagPipeline

/-! ### Claim theorems: rerank stage -/

/-- Claim C4.  If the reranker call fails (any raised exception — error,
timeout, non-2xx, JSON decode failure — or a malformed response body with no
`results` key), `rerank_documents` returns exactly the first `top_n` fused
candidates unchanged and in fused order, without raising; the fallback
provenance is observable as the absent `rerank_score` key (`none`), which
makes downstream consumers fall back to the fusion score. -/
theorem rerank_failure_fallback (documents : List FusedDoc) (top_n : ℕ) (e : Unit) :
    rerank_documents documents top_n (.error e)
        = (documents.take top_n).map (fun d => ⟨d, none⟩)
    ∧ rerank_documents documents top_n (.ok .noResultsField)
        = (documents.take top_n).map (fun d => ⟨d, none⟩)
    ∧ (rerank_documents documents top_n (.error e)).map (·.doc)
        = documents.take top_n
    ∧ ∀ r ∈ rerank_documents documents top_n (.error e), r.rerank_score = none := by
  have h1 : rerank_documents documents top_n (.error e)
      = (documents.take top_n).map (fun d => ⟨d, none⟩) := by
    unfold rerank_documents
    cases documents with
    | nil => simp
    | cons d ds => simp
  have h2 : rerank_documents documents top_n (.ok .noResultsField)
      = (documents.take top_n).map (fun d => ⟨d, none⟩) := by
    unfold rerank_documents
    cases documents with
    | nil => simp
    | cons d ds => simp
  refine ⟨h1, h2, ?_, ?_⟩
  · rw [h1, List.map_map]
    simp [Function.comp_def]
  · intro r hr
    rw [h1] at hr
    obtain ⟨d, _, rfl⟩ := List.mem_map.mp hr
    rfl

/-- Witness for C4: two fused candidates, `top_n = 1`, failed call — the
output is the first candidate unchanged, `rerank_score` absent. -/
theorem rerank_failure_fallback_witness :
    rerank_documents [⟨dA, 1/61⟩, ⟨dB, 1/62⟩] 1 (.error ())
        = [⟨⟨dA, 1/61⟩, none⟩]
    ∧ (⟨⟨dA, 1/61⟩, none⟩ : RerankOut).rerank_score = none := by
  have h := rerank_failure_fallback [⟨dA, 1/61⟩, ⟨dB, 1/62⟩] 1 ()
  exact ⟨h.1, h.2.2.2 ⟨⟨dA, 1/61⟩, none⟩ (by rw [h.1]; exact List.mem_singleton.mpr rfl)⟩

/-- Claim C7 (counterexample).  With three fused candidates and `top_n = 1`
the claim says `min(3, 1 * 2) = 2` `(query, content)` pairs are submitted;
the code builds `texts` from ALL candidates and submits 3 pairs. -/
theorem rerank_request_counterexample :
    ((rerank_request "q" [⟨dA, 1/61⟩, ⟨dB, 1/62⟩, ⟨dC, 1/63⟩] 1).documents).length = 3
    ∧ min ([(⟨dA, 1/61⟩ : FusedDoc), ⟨dB, 1/62⟩, ⟨dC, 1/63⟩].length) (1 * 2) = 2
    ∧ (3 : ℕ) ≠ 2 := by
  refine ⟨?_, ?_, by decide⟩
  · simp [rerank_request]
  · simp

/-- Claim C7 (amended).  The rerank stage submits, in a single batched call,
the `(query, content)` pairs of ALL fused candidates (no truncation to
`top_n * 2`): the posted body carries the query, the `content` of every
candidate in fused order, and `top_n`. -/
theorem rerank_request_submits_all (q : String) (documents : List FusedDoc)
    (top_n : ℕ) :
    (rerank_request q documents top_n).query = q
    ∧ (rerank_request q documents top_n).documents
        = documents.map (fun d => key d.doc)
    ∧ (rerank_request q documents top_n).documents.length = documents.length
    ∧ (rerank_request q documents top_n).top_n = top_n :=
  ⟨rfl, rfl, by simp [rerank_request], rfl⟩

/-- Claim C10 (counterexample).  Response `[{"index": -4,
"relevance_score": 1}]` against 3 documents and `top_n = 2`: the claim says
the entry's negative index is accepted and selects a document from the end
(so the success-path output would have at most 1 item, carrying a rerank
score); instead `documents[-4]` raises `IndexError` inside the `try`, and
the call falls back to the first 2 fused candidates with no rerank score. -/
theorem rerank_deep_negative_index_counterexample :
    rerank_documents [⟨dA, 0⟩, ⟨dB, 0⟩, ⟨dC, 0⟩] 2
        (.ok (.withResults [⟨some (-4), none, some 1, none⟩]))
        = [⟨⟨dA, 0⟩, none⟩, ⟨⟨dB, 0⟩, none⟩]
    ∧ ¬ ((rerank_documents [⟨dA, 0⟩, ⟨dB, 0⟩, ⟨dC, 0⟩] 2
          (.ok (.withResults [⟨some (-4), none, some 1, none⟩]))).length ≤ 1) := by
  have h : rerank_documents [⟨dA, 0⟩, ⟨dB, 0⟩, ⟨dC, 0⟩] 2
      (.ok (.withResults [⟨some (-4), none, some 1, none⟩]))
      = [⟨⟨dA, 0⟩, none⟩, ⟨⟨dB, 0⟩, none⟩] := by
    norm_num [rerank_documents, buildReranked, rankedIndices, toIdxScore, pyGet?]
  refine ⟨h, ?_⟩
  rw [h]
  simp

/-- Claim C10 (amended).  On a successful reranker response, entries whose
effective index is at least `-len(documents)` behave as the claim states:
an entry is kept iff `index < len(documents)` (selecting from the end for a
negative index), entries with out-of-range non-negative index are silently
dropped, and the output never exceeds `top_n` (for any response).  An index
below `-len(documents)` instead raises `IndexError` internally and makes the
whole call fall back to the first `top_n` fused candidates. -/
theorem rerank_success_keeps_valid_indices (documents : List FusedDoc) (top_n : ℕ)
    (items : List RerankItem)
    (hvalid : ∀ p ∈ rankedIndices items top_n, -(documents.length : Int) ≤ p.1) :
    rerank_documents documents top_n (.ok (.withResults items))
      = (rankedIndices items top_n).filterMap (fun p =>
          if p.1 < (documents.length : Int)
          then (pyGet? documents p.1).map (fun d => ⟨d, some p.2⟩) else none)
    ∧ ∀ response : Except Unit RerankResponse,
        (rerank_documents documents top_n response).length ≤ top_n :=
  ⟨rerank_documents_success documents top_n items hvalid,
   fun response => rerank_documents_length_le documents top_n response⟩

/-- Witness for C10: 3 documents, `top_n = 2`, response entries with
index `-1` (valid negative, selects the last document) and index `5`
(out of range, dropped). -/
theorem rerank_success_keeps_valid_indices_witness :
    rerank_documents [⟨dA, 0⟩, ⟨dB, 0⟩, ⟨dC, 0⟩] 2
        (.ok (.withResults [⟨some (-1), none, some 1, none⟩,
                            ⟨some 5, none, some (1/2), none⟩]))
      = (rankedIndices [⟨some (-1), none, some 1, none⟩,
                        ⟨some 5, none, some (1/2), none⟩] 2).filterMap (fun p =>
          if p.1 < (([(⟨dA, 0⟩ : FusedDoc), ⟨dB, 0⟩, ⟨dC, 0⟩]).length : Int)
          then (pyGet? [⟨dA, 0⟩, ⟨dB, 0⟩, ⟨dC, 0⟩] p.1).map
            (fun d => ⟨d, some p.2⟩) else none)
    ∧ ∀ response : Except Unit RerankResponse,
        (rerank_documents [⟨dA, 0⟩, ⟨dB, 0⟩, ⟨dC, 0⟩] 2 response).length ≤ 2 :=
  rerank_success_keeps_valid_indices [⟨dA, 0⟩, ⟨dB, 0⟩, ⟨dC, 0⟩] 2
    [⟨some (-1), none, some 1, none⟩, ⟨some 5, none, some (1/2), none⟩]
    (by
      intro p hp
      simp only [rankedIndices, toIdxScore, List.take, List.map, List.mem_cons,
        List.not_mem_nil, or_false, Option.getD_some] at hp
      rcases hp with h | h <;> subst h <;> norm_num)

end RagPipeline

namespace RagPipeline

/-! ### Claim theorems: `RetrievalService` -/

/-- Claim C3 (counterexample).  With one ensemble document and
`use_rerank = false`, `retrieve_with_scores` returns the record with
`score = 0.0` (`"score": 0.0  # No score without reranking`), even though
the same passage as the sole candidate of a source would carry the nonzero
RRF score `1/61`: the score field is not populated from `rrf_score`. -/
theorem retrieve_with_scores_zero_score_counterexample :
    retrieve_with_scores "q" [⟨"a", 7⟩] 5 false (fun _ l _ => l)
        = some [⟨"a", 7, 0, false⟩]
    ∧ reciprocal_rank_fusion [("vector", [dA]), ("keyword", [])] 60 = [⟨dA, 1/61⟩]
    ∧ ¬ ((1 : ℚ)/61 = 0) := by
  refine ⟨rfl, ?_, by norm_num⟩
  norm_num +decide [reciprocal_rank_fusion, buildFused, processDocs, addDoc, bump,
    fkey, key, List.insertionSort, List.orderedInsert, scoreDesc, dA]

/-- Claim C3 (amended).  When `use_rerank` is false the retrieval bypasses
the rerank stage entirely — the result does not depend on the reranker
function, which is never invoked — and returns the first `k` ensemble
documents directly; but `retrieve_with_scores` populates each record's
score field with the constant `0.0` (`reranked = false`), not with an RRF
score. -/
theorem retrieve_no_rerank_bypass (q : String) (ensemble_docs : List Document)
    (k : ℕ) (f g : String → List (String × ℚ) → ℕ → List (String × ℚ)) :
    retrieve_with_scores q ensemble_docs k false f
        = retrieve_with_scores q ensemble_docs k false g
    ∧ retrieve_with_scores q ensemble_docs k false f
        = some ((ensemble_docs.take k).map (fun d =>
            (⟨d.page_content, d.metadata, 0, false⟩ : RetrievedRecord)))
    ∧ retrieve q ensemble_docs k false f = some (ensemble_docs.take k) := by
  refine ⟨rfl, ?_, ?_⟩
  · unfold retrieve_with_scores
    simp [List.take_take]
  · unfold retrieve
    simp [List.take_take]

end RagPipeline
